import Mathlib

/-!
Shallow embedding of the advanced control-signal scheduler
(ComfyUI-Advanced-ControlNet-legacy, file control/control.py).

Tensors are modelled as lists of per-batch-slot rows of rational values
(List (List Rat)); the outer index is the batch dimension (x.size(0)),
the inner list holds the flattened per-slot spatial values.  Machine
floats are modelled as Rat.  Fallible code (Python exceptions such as
IndexError, KeyError, AttributeError, ZeroDivisionError) returns Option,
with none standing for a raised exception.  Dtype casts (x.to(dtype))
are value-preserving and are therefore not modelled.
-/

abbrev Tensor := List (List ℚ)

/-- Python list indexing semantics: a negative index counts from the end;
an index outside [-len, len) raises IndexError (returns none). -/
def pyIdx (len : Nat) (i : Int) : Option Nat :=
  if i < 0 then
    (if 0 ≤ i + len ∧ i + len < len then some (i + len).toNat else none)
  else
    (if 0 ≤ i ∧ i < len then some i.toNat else none)

/-- Python l[i] read with IndexError modelled as none. -/
def pyGet (l : List α) (i : Int) : Option α :=
  match pyIdx l.length i with
  | none => none
  | some n => l.get? n

/-- Python l[i] = f(l[i]) (read-modify-write at one index), IndexError as none. -/
def pyModify (l : List α) (i : Int) (f : α → α) : Option (List α) :=
  match pyIdx l.length i with
  | none => none
  | some n =>
    match l.get? n with
    | none => none
    | some a => some (l.set n (f a))

/-- Stable insertion of one element into a key-sorted list (helper for the
Python list.sort(key=...) calls, which are stable sorts). -/
def insertSorted [LinearOrder β] (key : α → β) (a : α) : List α → List α
  | [] => [a]
  | b :: l => if key a ≤ key b then a :: b :: l else b :: insertSorted key a l

/-- Stable sort by key, modelling Python list.sort(key=...). -/
def sortByKey [LinearOrder β] (key : α → β) : List α → List α
  | [] => []
  | a :: l => insertSorted key a (sortByKey key l)

/-- The scan-replace-else-append loop shared by LatentKeyframeGroup.add and
TimestepKeyframeGroup.add: the first entry with an equal key is replaced,
otherwise the new entry is appended. -/
def replaceOrAppend [DecidableEq β] (key : α → β) (k : α) : List α → List α
  | [] => [k]
  | a :: l => if key a = key k then k :: l else a :: replaceOrAppend key k l

/-- control.py line 90: LatentKeyframe(batch_index, strength). -/
structure LatentKeyframe where
  batch_index : Int
  strength : ℚ
deriving Repr, DecidableEq

/-- control.py line 97: LatentKeyframeGroup, kept sorted by batch_index. -/
structure LatentKeyframeGroup where
  keyframes : List LatentKeyframe
deriving Repr, DecidableEq

/-- control.py lines 101-111: replace entry with equal batch_index else
append, then sort by batch_index. -/
def LatentKeyframeGroup.add (g : LatentKeyframeGroup) (k : LatentKeyframe) :
    LatentKeyframeGroup :=
  ⟨sortByKey (·.batch_index) (replaceOrAppend (·.batch_index) k g.keyframes)⟩

/-- control.py lines 113-117: try self.keyframes[index] except IndexError
return None (Python indexing, so negative indices count from the end). -/
def LatentKeyframeGroup.get_index (g : LatentKeyframeGroup) (i : Int) :
    Option LatentKeyframe :=
  pyGet g.keyframes i

/-- control.py lines 122-123. -/
def LatentKeyframeGroup.is_empty (g : LatentKeyframeGroup) : Bool :=
  g.keyframes.length = 0

/-- control.py lines 125-129: a fresh empty group, then add each keyframe
of the original (the same keyframe objects). -/
def LatentKeyframeGroup.clone (g : LatentKeyframeGroup) : LatentKeyframeGroup :=
  g.keyframes.foldl (fun c tk => c.add tk) ⟨[]⟩

/-- control.py lines 28-36: ControlWeights with in-place reversal when
flip_weights is set at construction. -/
structure ControlWeights where
  weight_type : String
  base_multiplier : ℚ
  flip_weights : Bool
  weights : Option (List ℚ)
  weight_mask : Option Tensor
deriving Repr, DecidableEq

/-- The ControlWeights constructor (control.py lines 29-36): reverses the
weight list once when flip_weights is true. -/
def ControlWeights.make (wt : String) (bm : ℚ) (flip : Bool)
    (ws : Option (List ℚ)) (wm : Option Tensor) : ControlWeights :=
  ⟨wt, bm, flip, if flip then ws.map List.reverse else ws, wm⟩

/-- control.py lines 38-46: the weight-mask branch is a placeholder no-op
(pass); with weights present return weights[idx] (IndexError as none),
otherwise 1.0. -/
def ControlWeights.get (w : ControlWeights) (idx : Nat) : Option ℚ :=
  match w.weights with
  | some ws => pyGet ws (idx : Int)
  | none => some 1

/-- control.py lines 48-50. -/
def ControlWeights.default : ControlWeights :=
  ControlWeights.make "default" 1 false none none

/-- control.py lines 52-54. -/
def ControlWeights.universal (bm : ℚ) (flip : Bool) : ControlWeights :=
  ControlWeights.make "universal" bm flip none none

/-- control.py lines 56-60. -/
def ControlWeights.t2iadapter (ws : Option (List ℚ)) (flip : Bool) : ControlWeights :=
  ControlWeights.make "t2iadapter" 1 flip (some (ws.getD (List.replicate 12 1))) none

/-- control.py lines 62-66. -/
def ControlWeights.controlnet (ws : Option (List ℚ)) (flip : Bool) : ControlWeights :=
  ControlWeights.make "controlnet" 1 flip (some (ws.getD (List.replicate 13 1))) none

/-- control.py lines 68-72. -/
def ControlWeights.controllora (ws : Option (List ℚ)) (flip : Bool) : ControlWeights :=
  ControlWeights.make "controllora" 1 flip (some (ws.getD (List.replicate 10 1))) none

/-- control.py lines 132-152: TimestepKeyframe; start_t is initialized to
999999999.9 and later recomputed by pre_run_advanced. -/
structure TimestepKeyframe where
  start_percent : ℚ
  start_t : ℚ
  strength : ℚ
  interpolationMode : String
  control_weights : Option ControlWeights
  latent_keyframes : Option LatentKeyframeGroup
  null_latent_kf_strength : ℚ
  inherit_missing : Bool
  guarantee_usage : Bool
  mask_hint_orig : Option Tensor
deriving Repr, DecidableEq

/-- control.py line 154-155. -/
def TimestepKeyframe.has_control_weights (tk : TimestepKeyframe) : Bool :=
  tk.control_weights.isSome

/-- control.py line 157-158. -/
def TimestepKeyframe.has_latent_keyframes (tk : TimestepKeyframe) : Bool :=
  tk.latent_keyframes.isSome

/-- control.py line 160-161. -/
def TimestepKeyframe.has_mask_hint (tk : TimestepKeyframe) : Bool :=
  tk.mask_hint_orig.isSome

/-- control.py lines 164-166: TimestepKeyframe.default() = cls(0.0), all
other constructor arguments at their declared defaults. -/
def TimestepKeyframe.default : TimestepKeyframe :=
  ⟨0, 9999999999 / 10, 1, "none", none, none, 0, true, true, none⟩

/-- control.py line 170: TimestepKeyframeGroup, kept sorted by start_percent. -/
structure TimestepKeyframeGroup where
  keyframes : List TimestepKeyframe
deriving Repr, DecidableEq

/-- control.py lines 171-173: the constructor seeds the group with one
default keyframe. -/
def TimestepKeyframeGroup.init : TimestepKeyframeGroup :=
  ⟨[TimestepKeyframe.default]⟩

/-- control.py lines 175-185: replace entry with equal start_percent else
append, then sort by start_percent. -/
def TimestepKeyframeGroup.add (g : TimestepKeyframeGroup) (k : TimestepKeyframe) :
    TimestepKeyframeGroup :=
  ⟨sortByKey (·.start_percent) (replaceOrAppend (·.start_percent) k g.keyframes)⟩

/-- control.py lines 187-191: try self.keyframes[index] except IndexError
return None. -/
def TimestepKeyframeGroup.get_index (g : TimestepKeyframeGroup) (i : Int) :
    Option TimestepKeyframe :=
  pyGet g.keyframes i

/-- control.py lines 193-194. -/
def TimestepKeyframeGroup.has_index (g : TimestepKeyframeGroup) (i : Int) : Bool :=
  0 ≤ i && i < g.keyframes.length

/-- control.py lines 202-203. -/
def TimestepKeyframeGroup.is_empty (g : TimestepKeyframeGroup) : Bool :=
  g.keyframes.length = 0

/-- control.py lines 205-209: a freshly constructed group (which is seeded
with the default keyframe), then add each keyframe of the original. -/
def TimestepKeyframeGroup.clone (g : TimestepKeyframeGroup) : TimestepKeyframeGroup :=
  g.keyframes.foldl (fun c tk => c.add tk) TimestepKeyframeGroup.init

/-- control.py lines 211-215: default(keyframe) builds a fresh group and
overwrites its seed entry at index 0. -/
def TimestepKeyframeGroup.defaultGroup (k : TimestepKeyframe) : TimestepKeyframeGroup :=
  ⟨[k]⟩

/-- control.py lines 221-252: the mutable per-run scheduling state of
AdvancedControlBase.  strength and global_average_pooling live on the
wrapped comfy ControlBase object; batched_number and t are None until
prepare_current_timestep runs (modelled as Option). -/
structure AdvancedControlBase where
  strength : ℚ
  global_average_pooling : Bool
  mask_cond_hint_original : Option Tensor
  mask_cond_hint : Option Tensor
  tk_mask_cond_hint_original : Option Tensor
  tk_mask_cond_hint : Option Tensor
  weight_mask_cond_hint : Option Tensor
  sub_idxs : Option (List Int)
  full_latent_length : Nat
  context_length : Nat
  t : Option ℚ
  batched_number : Option Nat
  weights : Option ControlWeights
  weights_default : ControlWeights
  weights_override : Option ControlWeights
  latent_keyframes : Option LatentKeyframeGroup
  latent_keyframe_override : Option LatentKeyframeGroup
  timestep_keyframes : TimestepKeyframeGroup
  current_timestep_keyframe : Option TimestepKeyframe
  current_timestep_index : Int
deriving Repr, DecidableEq

/-- control.py lines 282-294, the body executed when the scan adopts
timestep keyframe eval_tk at timeline position i: set the cursor and the
active keyframe, then resolve each of {control weights, latent keyframe
group, mask hint} with the inherit_missing rule. -/
def adoptKeyframe (s : AdvancedControlBase) (tk : TimestepKeyframe) (i : Nat) :
    AdvancedControlBase :=
  { s with
    current_timestep_index := (i : Int),
    current_timestep_keyframe := some tk,
    weights :=
      if tk.control_weights.isSome then tk.control_weights
      else if tk.inherit_missing then s.weights else some s.weights_default,
    latent_keyframes :=
      if tk.latent_keyframes.isSome then tk.latent_keyframes
      else if tk.inherit_missing then s.latent_keyframes else none,
    tk_mask_cond_hint_original :=
      if tk.mask_hint_orig.isSome then tk.mask_hint_orig
      else if tk.inherit_missing then s.tk_mask_cond_hint_original else none }

/-- control.py lines 275-300: scan the timeline forward from position i
over the remaining keyframes; adopt every keyframe whose start_t ≥ curr_t,
stop at a guarantee_usage keyframe or at the first keyframe out of range. -/
def scanKeyframes (curr_t : ℚ) : AdvancedControlBase → Nat → List TimestepKeyframe →
    AdvancedControlBase
  | s, _, [] => s
  | s, i, tk :: rest =>
    if tk.start_t ≥ curr_t then
      let s' := adoptKeyframe s tk i
      if tk.guarantee_usage then s' else scanKeyframes curr_t s' (i + 1) rest
    else s

/-- control.py lines 313-317: substitute the variant default profile for an
absent or Default-tagged profile, or the variant-derived universal profile
for a Universal-tagged one (guw is the variant's get_universal_weights,
which reads self.weights). -/
def prepare_weights (guw : ControlWeights → ControlWeights)
    (s : AdvancedControlBase) : AdvancedControlBase :=
  match s.weights with
  | none => { s with weights := some s.weights_default }
  | some w =>
    if w.weight_type = "default" then { s with weights := some s.weights_default }
    else if w.weight_type = "universal" then { s with weights := some (guw w) }
    else s

/-- control.py lines 273-300: the scan phase of prepare_current_timestep;
only runs when position current_timestep_index + 1 exists. -/
def scanPhase (curr_t : ℚ) (s0 : AdvancedControlBase) : AdvancedControlBase :=
  if s0.timestep_keyframes.has_index (s0.current_timestep_index + 1) then
    scanKeyframes curr_t s0 (s0.current_timestep_index + 1).toNat
      (s0.timestep_keyframes.keyframes.drop (s0.current_timestep_index + 1).toNat)
  else s0

/-- control.py lines 302-307: when the active index changed during the
scan, the run-level overrides unconditionally replace the resolved
weights / latent keyframes. -/
def applyOverrides (prev_index : Int) (s1 : AdvancedControlBase) : AdvancedControlBase :=
  if prev_index ≠ s1.current_timestep_index then
    { s1 with
      weights := if s1.weights_override.isSome then s1.weights_override else s1.weights,
      latent_keyframes :=
        if s1.latent_keyframe_override.isSome then s1.latent_keyframe_override
        else s1.latent_keyframes }
  else s1

/-- control.py lines 266-311: prepare_current_timestep(t, batched_number).
curr_t is t[0].  Scans forward from current_timestep_index + 1 when that
position exists, applies the run-level overrides when the index changed,
then normalizes the resolved weights. -/
def prepare_current_timestep (guw : ControlWeights → ControlWeights)
    (s : AdvancedControlBase) (curr_t : ℚ) (bn : Nat) : AdvancedControlBase :=
  prepare_weights guw
    (applyOverrides s.current_timestep_index
      (scanPhase curr_t { s with t := some curr_t, batched_number := some bn }))

/-- control.py lines 514-538: cleanup_advanced resets all per-run state,
in particular the timestep cursor back to -1. -/
def cleanup_advanced (s : AdvancedControlBase) : AdvancedControlBase :=
  { s with
    sub_idxs := none, full_latent_length := 0, context_length := 0,
    t := none, batched_number := none, weights := none, latent_keyframes := none,
    current_timestep_keyframe := none, current_timestep_index := -1,
    mask_cond_hint := none, tk_mask_cond_hint_original := none,
    tk_mask_cond_hint := none, weight_mask_cond_hint := none }

/-- control.py lines 337-350: get_control_inject.  prev models the result
of previous_controlnet.get_control (none when there is no upstream node or
it returned None); adv models get_control_advanced.  The outer Option is a
raised exception (the keyframe strength dereference when no active
keyframe exists; note Python or short-circuits, so strength == 0.0 returns
before that dereference). -/
def get_control_inject {R : Type} (guw : ControlWeights → ControlWeights)
    (adv : AdvancedControlBase → Option R) (s : AdvancedControlBase)
    (curr_t : ℚ) (bn : Nat) (prev : Option R) : Option (Option R) :=
  if (prepare_current_timestep guw s curr_t bn).strength = 0 then some prev
  else
    match (prepare_current_timestep guw s curr_t bn).current_timestep_keyframe with
    | none => none
    | some kf =>
      if kf.strength = 0 then some prev
      else some (adv (prepare_current_timestep guw s curr_t bn))

/-- control.py lines 551-554: ControlNetAdvanced.get_universal_weights,
reading self.weights (the argument w) for base_multiplier and flip_weights. -/
def ControlNetAdvanced.get_universal_weights (w : ControlWeights) : ControlWeights :=
  ControlWeights.controlnet
    (some ((List.range 13).map (fun i => w.base_multiplier ^ (12 - i))))
    w.flip_weights

/-- control.py lines 385-386 loop body, iterated for b in range(bn): scale
the latent slot at flat position (latent_count * b) + real by str (the
whole row is multiplied, an IndexError surfaces as none). -/
def scaleSlots (lc : Nat) (real : Int) (str : ℚ) (x : Tensor) : Nat → Option Tensor
  | 0 => some x
  | b + 1 =>
    match scaleSlots lc real str x b with
    | none => none
    | some x' => pyModify x' (((lc * b : Nat) : Int) + real) (List.map (· * str))

/-- control.py lines 364-366: the sub_idxs actual-to-subset dictionary;
lookup returns the position of the last occurrence (later dict writes win). -/
def lastIndexOf (l : List Int) (a : Int) : Option Nat :=
  (List.range l.length).foldl
    (fun acc i => if l.get? i = some a then some i else acc) none

/-- control.py lines 367-386, the body for one latent keyframe: resolve a
negative batch_index (adding latent_count without sub_idxs, else
full_latent_length), update the to-null set, and scale the slot in every
cond/uncond sub-batch.  mapped is the truthy sub_idxs list when present;
its KeyError on a missing removal surfaces as none. -/
def latentStep (lc bn : Nat) (negAdj : Int) (mapped : Option (List Int))
    (acc : Tensor × List Int) (k : LatentKeyframe) : Option (Tensor × List Int) :=
  let real0 : Int := if k.batch_index < 0 then k.batch_index + negAdj else k.batch_index
  match mapped with
  | none =>
    let toNull' := if real0 ∈ acc.2 then acc.2.erase real0 else acc.2
    match scaleSlots lc real0 k.strength acc.1 bn with
    | none => none
    | some x' => some (x', toNull')
  | some l =>
    match lastIndexOf l real0 with
    | none => some acc
    | some ri =>
      if (ri : Int) ∈ acc.2 then
        match scaleSlots lc (ri : Int) k.strength acc.1 bn with
        | none => none
        | some x' => some (x', acc.2.erase (ri : Int))
      else none

/-- control.py lines 367-386: the for-keyframe loop. -/
def latentLoop (lc bn : Nat) (negAdj : Int) (mapped : Option (List Int)) :
    Tensor → List Int → List LatentKeyframe → Option (Tensor × List Int)
  | x, tn, [] => some (x, tn)
  | x, tn, k :: ks =>
    match latentStep lc bn negAdj mapped (x, tn) k with
    | none => none
    | some (x', tn') => latentLoop lc bn negAdj mapped x' tn' ks

/-- control.py lines 389-392: scale every remaining (un-scheduled) latent
slot by null_latent_kf_strength in each cond/uncond sub-batch. -/
def nullLoop (lc bn : Nat) (nullStr : ℚ) : Tensor → List Int → Option Tensor
  | x, [] => some x
  | x, j :: js =>
    match scaleSlots lc j nullStr x bn with
    | none => none
    | some x' => nullLoop lc bn nullStr x' js

/-- Elementwise tensor-by-mask multiplication (control.py lines 394-399;
prepare_mask_batch resizes only the spatial extent, which is the identity
on our flattened per-slot rows). -/
def maskMul (x m : Tensor) : Tensor :=
  x.zipWith (fun r mr => r.zipWith (· * ·) mr) m

/-- control.py lines 355-402: apply_advanced_strengths_and_masks.  Returns
none when the Python code would raise (no active keyframe at line 401,
batched_number None or 0, an out-of-range slot write, a KeyError on the
to-null set).  batched_number is read from the state. -/
def apply_advanced_strengths_and_masks (s : AdvancedControlBase) (x : Tensor) :
    Option Tensor :=
  match s.current_timestep_keyframe with
  | none => none
  | some kf =>
    let step1 : Option Tensor :=
      match s.latent_keyframes with
      | none => some x
      | some g =>
        match s.batched_number with
        | none => none
        | some bn =>
          if bn = 0 then none
          else
            let lc := x.length / bn
            let mapped : Option (List Int) :=
              match s.sub_idxs with
              | none => none
              | some l => if l = [] then none else some l
            let negAdj : Int :=
              match s.sub_idxs with
              | none => (lc : Int)
              | some _ => (s.full_latent_length : Int)
            match latentLoop lc bn negAdj mapped x
                ((List.range lc).map (fun n : Nat => (n : Int))) g.keyframes with
            | none => none
            | some (x', tn) => nullLoop lc bn kf.null_latent_kf_strength x' tn
    match step1 with
    | none => none
    | some x1 =>
      let x2 := match s.mask_cond_hint with | none => x1 | some m => maskMul x1 m
      let x3 := match s.tk_mask_cond_hint with | none => x2 | some m => maskMul x2 m
      some (if kf.strength ≠ 1 then x3.map (List.map (· * kf.strength)) else x3)

/-- Scalar rescale of a whole tensor (x *= c). -/
def tensorScale (t : Tensor) (c : ℚ) : Tensor := t.map (List.map (· * c))

/-- control.py line 432: spatial global average pooling with re-broadcast,
per batch slot. -/
def gapPool (t : Tensor) : Tensor :=
  t.map (fun row => List.replicate row.length (row.sum / (row.length : ℚ)))

/-- control.py lines 408-417 / 427-436, the per-layer body shared by the
input and output loops: a None layer is kept as None; otherwise apply
advanced strengths and masks, optionally global-average-pool (output loop
only), then multiply by strength * weights.get(i).  The outer Option is a
raised exception (including the AttributeError when self.weights is None). -/
def procOne (s : AdvancedControlBase) (gap : Bool) (i : Nat) (x : Option Tensor) :
    Option (Option Tensor) :=
  match x with
  | none => some none
  | some t =>
    match apply_advanced_strengths_and_masks s t with
    | none => none
    | some t1 =>
      let t2 := if gap then gapPool t1 else t1
      match s.weights with
      | none => none
      | some w =>
        match w.get i with
        | none => none
        | some wi => some (some (tensorScale t2 (s.strength * wi)))

/-- Process the layers of one list in order, starting at layer index i. -/
def procList (s : AdvancedControlBase) (gap : Bool) :
    Nat → List (Option Tensor) → Option (List (Option Tensor))
  | _, [] => some []
  | i, x :: xs =>
    match procOne s gap i x with
    | none => none
    | some y =>
      match procList s gap (i + 1) xs with
      | none => none
      | some ys => some (y :: ys)

/-- control.py lines 407-417: the control_input loop; each processed layer
is inserted at the front of the input list, so the processed layers end up
in reverse order. -/
def procInputs (s : AdvancedControlBase) :
    Option (List (Option Tensor)) → Option (List (Option Tensor))
  | none => some []
  | some l => (procList s false 0 l).map List.reverse

/-- control.py lines 419-438: the control_output loop; the last processed
layer is appended to middle, all earlier ones to output in order.  Returns
(middle, output). -/
def procOutputs (s : AdvancedControlBase) :
    Option (List (Option Tensor)) → Option (List (Option Tensor) × List (Option Tensor))
  | none => some ([], [])
  | some l =>
    (procList s s.global_average_pooling 0 l).map (fun pl =>
      match pl.getLast? with
      | none => ([], [])
      | some t => ([t], pl.dropLast))

/-- o[i] += prev_val (control.py line 450), elementwise tensor addition. -/
def tensorAdd (a b : Tensor) : Tensor :=
  a.zipWith (fun r1 r2 => r1.zipWith (· + ·) r2) b

/-- control.py lines 440-450, the merge loop for one of the three lists:
iterate over the previous chain result; append its extra tail entries,
adopt a previous entry where the current one is None, and add elementwise
where both are present (a None previous entry leaves the current one). -/
def mergeLists : List (Option Tensor) → List (Option Tensor) → List (Option Tensor)
  | [], p => p
  | o, [] => o
  | a :: o, b :: p =>
    (match a, b with
     | _, none => a
     | none, some bv => some bv
     | some av, some bv => some (tensorAdd av bv)) :: mergeLists o p

/-- The merged structure returned by control_merge (control.py line 405). -/
structure ControlOutput where
  input : List (Option Tensor)
  middle : List (Option Tensor)
  output : List (Option Tensor)
deriving Repr, DecidableEq

/-- control.py lines 404-451: control_merge_inject.  Process and classify
the input and output layer lists, then merge with the previous chain
result when present.  The outer Option is a raised exception from layer
processing. -/
def control_merge_inject (s : AdvancedControlBase)
    (control_input control_output : Option (List (Option Tensor)))
    (control_prev : Option ControlOutput) : Option ControlOutput :=
  match procInputs s control_input, procOutputs s control_output with
  | some inp, some (mid, outp) =>
    some
      (match control_prev with
       | none => ⟨inp, mid, outp⟩
       | some p =>
         ⟨mergeLists inp p.input, mergeLists mid p.middle, mergeLists outp p.output⟩)
  | _, _ => none

/-- The batch-index resolution of control.py lines 368-371 in the
no-sub_idxs case: a negative index counts from the end of the latent batch. -/
def resolveIndex (lc : Nat) (k : LatentKeyframe) : Int :=
  if k.batch_index < 0 then k.batch_index + lc else k.batch_index

/-- Statement-side characterization of the slot multiplier the latent loop
applies: the strength of the (first) keyframe resolving to slot j, and the
null strength for uncovered slots. -/
def latentStrengthSpec (lc : Nat) (g : LatentKeyframeGroup) (nullStr : ℚ)
    (j : Nat) : ℚ :=
  match g.keyframes.find? (fun k => resolveIndex lc k = (j : Int)) with
  | some k => k.strength
  | none => nullStr

/-- Statement-side multiplier contributed by the keyframe loop alone
(slots no keyframe resolves to are left untouched, factor 1). -/
def loopMultiplier (lc : Nat) (ks : List LatentKeyframe) (j : Int) : ℚ :=
  match ks.find? (fun k => resolveIndex lc k = j) with
  | some k => k.strength
  | none => 1

/-- A neutral controller state used in the concrete test vectors: global
strength 1, default ControlNet unit weights, no masks, no latent
keyframes, batched_number 1, the default timestep keyframe active. -/
def unitState : AdvancedControlBase :=
  { strength := 1, global_average_pooling := false,
    mask_cond_hint_original := none, mask_cond_hint := none,
    tk_mask_cond_hint_original := none, tk_mask_cond_hint := none,
    weight_mask_cond_hint := none, sub_idxs := none, full_latent_length := 0,
    context_length := 0, t := none, batched_number := some 1,
    weights := some (ControlWeights.controlnet none false),
    weights_default := ControlWeights.controlnet none false,
    weights_override := none, latent_keyframes := none,
    latent_keyframe_override := none,
    timestep_keyframes := TimestepKeyframeGroup.init,
    current_timestep_keyframe := some TimestepKeyframe.default,
    current_timestep_index := 0 }

/-! ## Claim C8: universal-weight derivation for the dense ControlNet variant -/

/-- C8: universal-weight derivation from base multiplier m over 13 layers
yields the vector [m^12, m^11, ..., m^1, m^0] in layer order: the weight at
position i equals m^(12 - i), and for m = 1/2 the concrete list is
[0.5^12, ..., 0.5^0]. -/
theorem c8_universal_weights_controlnet (w : ControlWeights) (i : Nat)
    (hf : w.flip_weights = false) (hi : i < 13) :
    (ControlNetAdvanced.get_universal_weights w).weights =
      some ((List.range 13).map (fun j => w.base_multiplier ^ (12 - j)))
    ∧ ((List.range 13).map (fun j => w.base_multiplier ^ (12 - j))).get? i =
      some (w.base_multiplier ^ (12 - i))
    ∧ (ControlNetAdvanced.get_universal_weights
        (ControlWeights.universal (1/2) false)).weights =
      some [(1/2:ℚ)^12, (1/2:ℚ)^11, (1/2:ℚ)^10, (1/2:ℚ)^9, (1/2:ℚ)^8, (1/2:ℚ)^7,
            (1/2:ℚ)^6, (1/2:ℚ)^5, (1/2:ℚ)^4, (1/2:ℚ)^3, (1/2:ℚ)^2, (1/2:ℚ)^1,
            (1/2:ℚ)^0] := by
  refine ⟨?_, ?_, ?_⟩
  · simp [ControlNetAdvanced.get_universal_weights, ControlWeights.controlnet,
      ControlWeights.make, hf]
  · rw [List.get?_map, List.get?_range hi]; rfl
  · norm_num [ControlNetAdvanced.get_universal_weights, ControlWeights.universal,
      ControlWeights.controlnet, ControlWeights.make, List.range_succ]

theorem c8_universal_weights_controlnet_witness :
    (ControlNetAdvanced.get_universal_weights
      (ControlWeights.universal (1/2) false)).weights =
      some ((List.range 13).map
        (fun j => (ControlWeights.universal (1/2) false).base_multiplier ^ (12 - j)))
    ∧ ((List.range 13).map
        (fun j => (ControlWeights.universal (1/2) false).base_multiplier ^ (12 - j))).get? 0 =
      some ((ControlWeights.universal (1/2) false).base_multiplier ^ 12) := by
  have h := c8_universal_weights_controlnet (ControlWeights.universal (1/2) false) 0
    rfl (by decide)
  exact ⟨h.1, h.2.1⟩

/-! ## Claim C10: out-of-range get_index -/

/-- Full behavior of the Python try-index-except-IndexError pattern used by
both get_index implementations. -/
theorem pyGet_spec {α : Type} (l : List α) (i : Int) :
    ((i < -(l.length : Int) ∨ (l.length : Int) ≤ i) → pyGet l i = none)
    ∧ (-(l.length : Int) ≤ i → i < 0 →
        pyGet l i = l.get? (i + l.length).toNat)
    ∧ (0 ≤ i → i < (l.length : Int) → pyGet l i = l.get? i.toNat) := by
  unfold pyGet pyIdx
  by_cases hneg : i < 0
  · by_cases hin : 0 ≤ i + (l.length : Int) ∧ i + (l.length : Int) < (l.length : Int)
    · simp only [if_pos hneg, if_pos hin]
      refine ⟨?_, ?_, ?_⟩ <;> intros <;> first | rfl | trivial | omega
    · simp only [if_pos hneg, if_neg hin]
      refine ⟨?_, ?_, ?_⟩ <;> intros <;> first | rfl | trivial | omega
  · by_cases hin : 0 ≤ i ∧ i < (l.length : Int)
    · simp only [if_neg hneg, if_pos hin]
      refine ⟨?_, ?_, ?_⟩ <;> intros <;> first | rfl | trivial | omega
    · simp only [if_neg hneg, if_neg hin]
      refine ⟨?_, ?_, ?_⟩ <;> intros <;> first | rfl | trivial | omega

/-- C10 counterexample: the claim says every negative index returns an
absent value, but Python indexing wraps negative indices, so index -1 on
the freshly constructed (non-empty) timestep keyframe group returns the
default keyframe rather than absent. -/
theorem c10_counterexample :
    TimestepKeyframeGroup.init.get_index (-1) = some TimestepKeyframe.default
    ∧ TimestepKeyframeGroup.init.get_index (-1) ≠ none := by
  have h : TimestepKeyframeGroup.init.get_index (-1) = some TimestepKeyframe.default := by
    norm_num [TimestepKeyframeGroup.init, TimestepKeyframeGroup.get_index, pyGet, pyIdx]
  exact ⟨h, by rw [h]; exact Option.some_ne_none _⟩

/-- C10 amended: get_index never raises; it returns absent exactly for the
indices Python rejects (index < -length or index ≥ length); an index in
[-length, -1] returns the entry at position length + index, and an index in
[0, length) returns the entry at that position. -/
theorem c10_get_index_amended :
    (∀ (g : LatentKeyframeGroup) (i : Int),
      ((i < -(g.keyframes.length : Int) ∨ (g.keyframes.length : Int) ≤ i) →
        g.get_index i = none)
      ∧ (-(g.keyframes.length : Int) ≤ i → i < 0 →
        g.get_index i = g.keyframes.get? (i + g.keyframes.length).toNat)
      ∧ (0 ≤ i → i < (g.keyframes.length : Int) →
        g.get_index i = g.keyframes.get? i.toNat))
    ∧ (∀ (g : TimestepKeyframeGroup) (i : Int),
      ((i < -(g.keyframes.length : Int) ∨ (g.keyframes.length : Int) ≤ i) →
        g.get_index i = none)
      ∧ (-(g.keyframes.length : Int) ≤ i → i < 0 →
        g.get_index i = g.keyframes.get? (i + g.keyframes.length).toNat)
      ∧ (0 ≤ i → i < (g.keyframes.length : Int) →
        g.get_index i = g.keyframes.get? i.toNat)) :=
  ⟨fun g i => pyGet_spec g.keyframes i, fun g i => pyGet_spec g.keyframes i⟩

theorem c10_get_index_amended_witness :
    TimestepKeyframeGroup.init.get_index 5 = none
    ∧ TimestepKeyframeGroup.init.get_index (-1) =
        TimestepKeyframeGroup.init.keyframes.get? 0 := by
  refine ⟨(c10_get_index_amended.2 TimestepKeyframeGroup.init 5).1 (by right; decide), ?_⟩
  have h := (c10_get_index_amended.2 TimestepKeyframeGroup.init (-1)).2.1
    (by decide) (by decide)
  exact h

/-! ## Claim C2: per-field inheritance on keyframe adoption -/

/-- C2: when prepare_current_timestep adopts a newly active timestep
keyframe (the adoptKeyframe step of the scan), then for each of {control
weights, latent keyframe group, mask hint} independently: a defined field
is adopted; an undefined field with inherit_missing = false is reset to
its default (the variant default weights profile, absent latent group,
absent mask); an undefined field with inherit_missing = true leaves the
previously resolved value untouched. -/
theorem c2_keyframe_inheritance (s : AdvancedControlBase) (tk : TimestepKeyframe)
    (i : Nat) :
    (adoptKeyframe s tk i).current_timestep_keyframe = some tk
    ∧ (adoptKeyframe s tk i).current_timestep_index = (i : Int)
    ∧ (tk.has_control_weights = true →
        (adoptKeyframe s tk i).weights = tk.control_weights)
    ∧ (tk.has_control_weights = false → tk.inherit_missing = false →
        (adoptKeyframe s tk i).weights = some s.weights_default)
    ∧ (tk.has_control_weights = false → tk.inherit_missing = true →
        (adoptKeyframe s tk i).weights = s.weights)
    ∧ (tk.has_latent_keyframes = true →
        (adoptKeyframe s tk i).latent_keyframes = tk.latent_keyframes)
    ∧ (tk.has_latent_keyframes = false → tk.inherit_missing = false →
        (adoptKeyframe s tk i).latent_keyframes = none)
    ∧ (tk.has_latent_keyframes = false → tk.inherit_missing = true →
        (adoptKeyframe s tk i).latent_keyframes = s.latent_keyframes)
    ∧ (tk.has_mask_hint = true →
        (adoptKeyframe s tk i).tk_mask_cond_hint_original = tk.mask_hint_orig)
    ∧ (tk.has_mask_hint = false → tk.inherit_missing = false →
        (adoptKeyframe s tk i).tk_mask_cond_hint_original = none)
    ∧ (tk.has_mask_hint = false → tk.inherit_missing = true →
        (adoptKeyframe s tk i).tk_mask_cond_hint_original =
          s.tk_mask_cond_hint_original) := by
  refine ⟨rfl, rfl, ?_, ?_, ?_, ?_, ?_, ?_, ?_, ?_, ?_⟩ <;> intros <;>
    simp_all [adoptKeyframe, TimestepKeyframe.has_control_weights,
      TimestepKeyframe.has_latent_keyframes, TimestepKeyframe.has_mask_hint]

/-- A keyframe that defines none of the three fields and does not inherit. -/
def tkReset : TimestepKeyframe :=
  { TimestepKeyframe.default with inherit_missing := false }

theorem c2_keyframe_inheritance_witness :
    (adoptKeyframe unitState tkReset 1).weights = some unitState.weights_default
    ∧ (adoptKeyframe unitState tkReset 1).latent_keyframes = none
    ∧ (adoptKeyframe unitState tkReset 1).tk_mask_cond_hint_original = none := by
  have h := c2_keyframe_inheritance unitState tkReset 1
  exact ⟨h.2.2.2.1 rfl rfl, h.2.2.2.2.2.2.1 rfl rfl, h.2.2.2.2.2.2.2.2.2.1 rfl rfl⟩

/-! ## Claim C5: the timestep cursor is monotonically non-decreasing -/

/-- The scan either leaves the state untouched or adopts a keyframe at one
of the scanned positions i, ..., i + remaining - 1. -/
theorem scanKeyframes_index_bound (curr_t : ℚ) (l : List TimestepKeyframe) :
    ∀ (i : Nat) (s : AdvancedControlBase),
      scanKeyframes curr_t s i l = s ∨
      ((i : Int) ≤ (scanKeyframes curr_t s i l).current_timestep_index ∧
       (scanKeyframes curr_t s i l).current_timestep_index < (i : Int) + l.length) := by
  induction l with
  | nil => intro i s; left; rfl
  | cons tk rest ih =>
    intro i s
    simp only [scanKeyframes]
    by_cases hge : tk.start_t ≥ curr_t
    · rw [if_pos hge]
      by_cases hgu : tk.guarantee_usage
      · rw [if_pos hgu]
        right
        refine ⟨le_refl _, ?_⟩
        show (i : Int) < (i : Int) + ((tk :: rest).length : Nat)
        push_cast [List.length_cons]
        omega
      · rw [if_neg hgu]
        rcases ih (i + 1) (adoptKeyframe s tk i) with h | ⟨h1, h2⟩
        · rw [h]
          right
          refine ⟨le_refl _, ?_⟩
          show (i : Int) < (i : Int) + ((tk :: rest).length : Nat)
          push_cast [List.length_cons]
          omega
        · right
          push_cast [List.length_cons] at h1 h2 ⊢
          omega
    · rw [if_neg hge]
      left
      rfl

theorem prepare_weights_preserves_index (guw : ControlWeights → ControlWeights)
    (s : AdvancedControlBase) :
    (prepare_weights guw s).current_timestep_index = s.current_timestep_index := by
  cases h : s.weights with
  | none => simp [prepare_weights, h]
  | some w =>
    simp only [prepare_weights, h]
    split_ifs <;> rfl

theorem applyOverrides_preserves_index (p : Int) (s : AdvancedControlBase) :
    (applyOverrides p s).current_timestep_index = s.current_timestep_index := by
  unfold applyOverrides
  split_ifs <;> rfl

/-- The scan phase leaves the cursor unchanged or moves it into
(cursor, timeline length). -/
theorem scanPhase_index_bound (curr_t : ℚ) (s0 : AdvancedControlBase) :
    (scanPhase curr_t s0).current_timestep_index = s0.current_timestep_index
    ∨ (s0.current_timestep_index + 1 ≤ (scanPhase curr_t s0).current_timestep_index
       ∧ (scanPhase curr_t s0).current_timestep_index <
         s0.timestep_keyframes.keyframes.length) := by
  unfold scanPhase
  by_cases hidx : s0.timestep_keyframes.has_index (s0.current_timestep_index + 1)
  · rw [if_pos hidx]
    have hidx' : 0 ≤ s0.current_timestep_index + 1 ∧
        s0.current_timestep_index + 1 <
          (s0.timestep_keyframes.keyframes.length : Int) := by
      simpa [TimestepKeyframeGroup.has_index] using hidx
    have hcast : ((s0.current_timestep_index + 1).toNat : Int) =
        s0.current_timestep_index + 1 := Int.toNat_of_nonneg hidx'.1
    rcases scanKeyframes_index_bound curr_t
        (s0.timestep_keyframes.keyframes.drop (s0.current_timestep_index + 1).toNat)
        (s0.current_timestep_index + 1).toNat s0 with h | ⟨h1, h2⟩
    · rw [h]
      left
      rfl
    · right
      rw [List.length_drop] at h2
      obtain ⟨hge, hlt⟩ := hidx'
      constructor
      · omega
      · omega
  · rw [if_neg hidx]
    left
    rfl

/-- C5: within one sampling run, prepare_current_timestep never decreases
the active-keyframe cursor: it leaves current_timestep_index unchanged or
moves it to a scanned position, which is strictly greater than the old
cursor (the scan starts at current_timestep_index + 1) and within the
timeline; and cleanup_advanced is the reset that sets the cursor to -1. -/
theorem c5_cursor_monotonic (guw : ControlWeights → ControlWeights)
    (s : AdvancedControlBase) (curr_t : ℚ) (bn : Nat) :
    s.current_timestep_index ≤
      (prepare_current_timestep guw s curr_t bn).current_timestep_index
    ∧ ((prepare_current_timestep guw s curr_t bn).current_timestep_index =
         s.current_timestep_index
       ∨ (s.current_timestep_index + 1 ≤
            (prepare_current_timestep guw s curr_t bn).current_timestep_index
          ∧ (prepare_current_timestep guw s curr_t bn).current_timestep_index <
            s.timestep_keyframes.keyframes.length))
    ∧ (cleanup_advanced s).current_timestep_index = -1 := by
  have hP : (prepare_current_timestep guw s curr_t bn).current_timestep_index =
      (scanPhase curr_t
        { s with t := some curr_t, batched_number := some bn }).current_timestep_index := by
    unfold prepare_current_timestep
    rw [prepare_weights_preserves_index, applyOverrides_preserves_index]
  have hmain : (prepare_current_timestep guw s curr_t bn).current_timestep_index =
        s.current_timestep_index
      ∨ (s.current_timestep_index + 1 ≤
           (prepare_current_timestep guw s curr_t bn).current_timestep_index
         ∧ (prepare_current_timestep guw s curr_t bn).current_timestep_index <
           s.timestep_keyframes.keyframes.length) := by
    rw [hP]
    exact scanPhase_index_bound curr_t
      { s with t := some curr_t, batched_number := some bn }
  refine ⟨?_, hmain, rfl⟩
  rcases hmain with h | ⟨h1, h2⟩
  · omega
  · omega

/-! ## Claim C4: zero-strength short circuit -/

/-- C4: get_control returns the upstream chain's result unmodified
(independently of the node's own control computation adv) exactly when the
node's global strength is 0.0 or the active timestep keyframe's strength
is 0.0; otherwise it returns the node's own advanced computation on the
prepared state. -/
theorem c4_short_circuit {R : Type} (guw : ControlWeights → ControlWeights)
    (adv : AdvancedControlBase → Option R) (s : AdvancedControlBase)
    (curr_t : ℚ) (bn : Nat) (prev : Option R) (kf : TimestepKeyframe)
    (hkf : (prepare_current_timestep guw s curr_t bn).current_timestep_keyframe =
      some kf) :
    (((prepare_current_timestep guw s curr_t bn).strength = 0 ∨ kf.strength = 0) →
      get_control_inject guw adv s curr_t bn prev = some prev)
    ∧ ((prepare_current_timestep guw s curr_t bn).strength ≠ 0 → kf.strength ≠ 0 →
      get_control_inject guw adv s curr_t bn prev =
        some (adv (prepare_current_timestep guw s curr_t bn))) := by
  constructor
  · rintro (h | h)
    · simp [get_control_inject, h]
    · by_cases hs : (prepare_current_timestep guw s curr_t bn).strength = 0
      · simp [get_control_inject, hs]
      · simp [get_control_inject, hs, hkf, h]
  · intro hs hk
    simp [get_control_inject, hs, hkf, hk]

/-- A controller whose global strength is zero, before its first
prepare_current_timestep call. -/
def zeroStrengthState : AdvancedControlBase :=
  { unitState with
    strength := 0
    current_timestep_index := -1
    current_timestep_keyframe := none }

theorem c4_short_circuit_witness :
    get_control_inject id (fun _ => some (7:ℚ)) zeroStrengthState 5 1 (some 3) =
      some (some 3) := by
  have hkf : (prepare_current_timestep id zeroStrengthState 5 1).current_timestep_keyframe =
      some TimestepKeyframe.default := by
    norm_num [prepare_current_timestep, scanPhase, applyOverrides, prepare_weights,
      scanKeyframes, adoptKeyframe, zeroStrengthState, unitState,
      TimestepKeyframeGroup.init, TimestepKeyframeGroup.has_index,
      TimestepKeyframe.default, ControlWeights.controlnet, ControlWeights.make]
  have hs : (prepare_current_timestep id zeroStrengthState 5 1).strength = 0 := by
    norm_num [prepare_current_timestep, scanPhase, applyOverrides, prepare_weights,
      scanKeyframes, adoptKeyframe, zeroStrengthState, unitState,
      TimestepKeyframeGroup.init, TimestepKeyframeGroup.has_index,
      TimestepKeyframe.default, ControlWeights.controlnet, ControlWeights.make]
  exact (c4_short_circuit id (fun _ => some (7:ℚ)) zeroStrengthState 5 1 (some 3)
    TimestepKeyframe.default hkf).1 (Or.inl hs)

/-! ## Generic lemmas about the insert-or-replace-then-stable-sort pattern -/

theorem length_insertSorted [LinearOrder β] (key : α → β) (a : α) (l : List α) :
    (insertSorted key a l).length = l.length + 1 := by
  induction l with
  | nil => rfl
  | cons b l ih =>
    simp only [insertSorted]
    split_ifs
    · simp
    · simp [ih]

theorem mem_insertSorted [LinearOrder β] (key : α → β) (x a : α) (l : List α) :
    x ∈ insertSorted key a l ↔ x = a ∨ x ∈ l := by
  induction l with
  | nil => simp [insertSorted]
  | cons b l ih =>
    simp only [insertSorted]
    split_ifs
    · simp [List.mem_cons]
    · simp only [List.mem_cons, ih]
      tauto

theorem pairwise_insertSorted [LinearOrder β] (key : α → β) (a : α) (l : List α)
    (h : l.Pairwise (fun x y => key x ≤ key y)) :
    (insertSorted key a l).Pairwise (fun x y => key x ≤ key y) := by
  induction l with
  | nil => simp [insertSorted]
  | cons b l ih =>
    obtain ⟨hb, hl⟩ := List.pairwise_cons.mp h
    simp only [insertSorted]
    split_ifs with hab
    · refine List.pairwise_cons.mpr ⟨?_, h⟩
      intro y hy
      rcases List.mem_cons.mp hy with rfl | hy'
      · exact hab
      · exact le_trans hab (hb y hy')
    · refine List.pairwise_cons.mpr ⟨?_, ih hl⟩
      intro y hy
      rcases (mem_insertSorted key y a l).mp hy with rfl | hy'
      · exact le_of_not_le hab
      · exact hb y hy'

theorem length_sortByKey [LinearOrder β] (key : α → β) (l : List α) :
    (sortByKey key l).length = l.length := by
  induction l with
  | nil => rfl
  | cons a l ih =>
    simp only [sortByKey]
    rw [length_insertSorted, ih]
    rfl

theorem mem_sortByKey [LinearOrder β] (key : α → β) (x : α) (l : List α) :
    x ∈ sortByKey key l ↔ x ∈ l := by
  induction l with
  | nil => simp [sortByKey]
  | cons a l ih =>
    simp only [sortByKey]
    rw [mem_insertSorted]
    simp [ih, List.mem_cons]

theorem pairwise_sortByKey [LinearOrder β] (key : α → β) (l : List α) :
    (sortByKey key l).Pairwise (fun x y => key x ≤ key y) := by
  induction l with
  | nil => simp [sortByKey]
  | cons a l ih => exact pairwise_insertSorted key a _ ih

theorem sortByKey_eq_of_sorted [LinearOrder β] (key : α → β) (l : List α)
    (h : l.Pairwise (fun x y => key x ≤ key y)) : sortByKey key l = l := by
  induction l with
  | nil => rfl
  | cons a l ih =>
    obtain ⟨ha, hl⟩ := List.pairwise_cons.mp h
    simp only [sortByKey]
    rw [ih hl]
    cases l with
    | nil => rfl
    | cons b l' =>
      simp only [insertSorted]
      rw [if_pos (ha b (List.mem_cons_self b l'))]

theorem replaceOrAppend_of_forall_ne [LinearOrder β] (key : α → β) (k : α)
    (l : List α) (h : ∀ a ∈ l, key a ≠ key k) :
    replaceOrAppend key k l = l ++ [k] := by
  induction l with
  | nil => rfl
  | cons a l ih =>
    simp only [replaceOrAppend]
    rw [if_neg (h a (List.mem_cons_self a l)),
      ih (fun b hb => h b (List.mem_cons_of_mem a hb))]
    rfl

theorem length_replaceOrAppend_of_mem [LinearOrder β] (key : α → β) (k : α)
    (l : List α) (h : ∃ a ∈ l, key a = key k) :
    (replaceOrAppend key k l).length = l.length := by
  induction l with
  | nil => simp at h
  | cons a l ih =>
    simp only [replaceOrAppend]
    by_cases hak : key a = key k
    · rw [if_pos hak]
      rfl
    · rw [if_neg hak]
      obtain ⟨b, hb, hbk⟩ := h
      rcases List.mem_cons.mp hb with rfl | hb'
      · exact absurd hbk hak
      · simp [ih ⟨b, hb', hbk⟩]

theorem mem_replaceOrAppend_self [LinearOrder β] (key : α → β) (k : α)
    (l : List α) : k ∈ replaceOrAppend key k l := by
  induction l with
  | nil => simp [replaceOrAppend]
  | cons a l ih =>
    simp only [replaceOrAppend]
    split_ifs
    · exact List.mem_cons_self _ _
    · exact List.mem_cons_of_mem _ ih

theorem mem_of_mem_replaceOrAppend [LinearOrder β] (key : α → β) (k : α) :
    ∀ (l : List α) (x : α), x ∈ replaceOrAppend key k l → x = k ∨ x ∈ l := by
  intro l
  induction l with
  | nil => intro x hx; simpa [replaceOrAppend] using hx
  | cons a l ih =>
    intro x hx
    simp only [replaceOrAppend] at hx
    split_ifs at hx with hak
    · rcases List.mem_cons.mp hx with rfl | hx'
      · exact Or.inl rfl
      · exact Or.inr (List.mem_cons_of_mem a hx')
    · rcases List.mem_cons.mp hx with rfl | hx'
      · exact Or.inr (List.mem_cons_self _ _)
      · rcases ih x hx' with h | h
        · exact Or.inl h
        · exact Or.inr (List.mem_cons_of_mem a h)

theorem eq_of_mem_replaceOrAppend_of_key [LinearOrder β] (key : α → β) (k : α) :
    ∀ (l : List α), (l.map key).Nodup →
      ∀ x ∈ replaceOrAppend key k l, key x = key k → x = k := by
  intro l
  induction l with
  | nil =>
    intro _ x hx _
    simpa [replaceOrAppend] using hx
  | cons a l ih =>
    intro hnd x hx hxk
    rw [List.map_cons, List.nodup_cons] at hnd
    obtain ⟨hna, hnd'⟩ := hnd
    simp only [replaceOrAppend] at hx
    split_ifs at hx with hak
    · rcases List.mem_cons.mp hx with rfl | hx'
      · rfl
      · have hmem : key x ∈ l.map key := List.mem_map_of_mem key hx'
        rw [hxk, ← hak] at hmem
        exact absurd hmem hna
    · rcases List.mem_cons.mp hx with rfl | hx'
      · exact absurd hxk hak
      · exact ih hnd' x hx' hxk

/-! ## Claim C9: add is insert-or-replace and keeps the group sorted -/

/-- C9: for both keyframe group types, add with an existing key replaces
that entry (length unchanged, and under the unique-key invariant the only
entry at that key is the new keyframe); add with a fresh key appends
(length grows by one); and the entries are sorted by key after the call. -/
theorem c9_add_insert_or_replace :
    (∀ (g : LatentKeyframeGroup) (k : LatentKeyframe),
      ((∃ e ∈ g.keyframes, e.batch_index = k.batch_index) →
        (g.add k).keyframes.length = g.keyframes.length)
      ∧ ((∀ e ∈ g.keyframes, e.batch_index ≠ k.batch_index) →
        (g.add k).keyframes.length = g.keyframes.length + 1)
      ∧ k ∈ (g.add k).keyframes
      ∧ ((g.keyframes.map (·.batch_index)).Nodup →
        ∀ e ∈ (g.add k).keyframes, e.batch_index = k.batch_index → e = k)
      ∧ (g.add k).keyframes.Pairwise (fun a b => a.batch_index ≤ b.batch_index))
    ∧ (∀ (g : TimestepKeyframeGroup) (k : TimestepKeyframe),
      ((∃ e ∈ g.keyframes, e.start_percent = k.start_percent) →
        (g.add k).keyframes.length = g.keyframes.length)
      ∧ ((∀ e ∈ g.keyframes, e.start_percent ≠ k.start_percent) →
        (g.add k).keyframes.length = g.keyframes.length + 1)
      ∧ k ∈ (g.add k).keyframes
      ∧ ((g.keyframes.map (·.start_percent)).Nodup →
        ∀ e ∈ (g.add k).keyframes, e.start_percent = k.start_percent → e = k)
      ∧ (g.add k).keyframes.Pairwise (fun a b => a.start_percent ≤ b.start_percent)) := by
  constructor
  · intro g k
    refine ⟨?_, ?_, ?_, ?_, ?_⟩
    · intro h
      show (sortByKey _ (replaceOrAppend _ k g.keyframes)).length = _
      rw [length_sortByKey, length_replaceOrAppend_of_mem (·.batch_index) k _ h]
    · intro h
      show (sortByKey _ (replaceOrAppend _ k g.keyframes)).length = _
      rw [length_sortByKey, replaceOrAppend_of_forall_ne (·.batch_index) k _ h]
      simp
    · exact (mem_sortByKey (·.batch_index) k _).mpr
        (mem_replaceOrAppend_self (·.batch_index) k g.keyframes)
    · intro hnd e he hek
      have he' : e ∈ sortByKey (fun x : LatentKeyframe => x.batch_index)
          (replaceOrAppend (fun x : LatentKeyframe => x.batch_index) k g.keyframes) := he
      exact eq_of_mem_replaceOrAppend_of_key
        (fun x : LatentKeyframe => x.batch_index) k g.keyframes hnd e
        ((mem_sortByKey (fun x : LatentKeyframe => x.batch_index) e _).mp he') hek
    · show (sortByKey (fun x : LatentKeyframe => x.batch_index)
        (replaceOrAppend (fun x : LatentKeyframe => x.batch_index) k g.keyframes)).Pairwise _
      exact pairwise_sortByKey (fun x : LatentKeyframe => x.batch_index) _
  · intro g k
    refine ⟨?_, ?_, ?_, ?_, ?_⟩
    · intro h
      show (sortByKey _ (replaceOrAppend _ k g.keyframes)).length = _
      rw [length_sortByKey, length_replaceOrAppend_of_mem (·.start_percent) k _ h]
    · intro h
      show (sortByKey _ (replaceOrAppend _ k g.keyframes)).length = _
      rw [length_sortByKey, replaceOrAppend_of_forall_ne (·.start_percent) k _ h]
      simp
    · exact (mem_sortByKey (·.start_percent) k _).mpr
        (mem_replaceOrAppend_self (·.start_percent) k g.keyframes)
    · intro hnd e he hek
      have he' : e ∈ sortByKey (fun x : TimestepKeyframe => x.start_percent)
          (replaceOrAppend (fun x : TimestepKeyframe => x.start_percent) k g.keyframes) := he
      exact eq_of_mem_replaceOrAppend_of_key
        (fun x : TimestepKeyframe => x.start_percent) k g.keyframes hnd e
        ((mem_sortByKey (fun x : TimestepKeyframe => x.start_percent) e _).mp he') hek
    · show (sortByKey (fun x : TimestepKeyframe => x.start_percent)
        (replaceOrAppend (fun x : TimestepKeyframe => x.start_percent) k g.keyframes)).Pairwise _
      exact pairwise_sortByKey (fun x : TimestepKeyframe => x.start_percent) _

/-- A two-entry latent group with batch indices 0 and 2. -/
def lgTwo : LatentKeyframeGroup := ⟨[⟨0, 1⟩, ⟨2, 1⟩]⟩

theorem c9_add_insert_or_replace_witness :
    ((lgTwo.add ⟨2, 3⟩).keyframes.length = lgTwo.keyframes.length)
    ∧ ((lgTwo.add ⟨5, 3⟩).keyframes.length = lgTwo.keyframes.length + 1)
    ∧ (∀ e ∈ (lgTwo.add ⟨2, 3⟩).keyframes, e.batch_index = 2 →
        e = (⟨2, 3⟩ : LatentKeyframe)) := by
  have h1 := (c9_add_insert_or_replace.1 lgTwo ⟨2, 3⟩).1
    ⟨⟨2, 1⟩, by simp [lgTwo], rfl⟩
  have h2 := (c9_add_insert_or_replace.1 lgTwo ⟨5, 3⟩).2.1 (by decide)
  have h3 := (c9_add_insert_or_replace.1 lgTwo ⟨2, 3⟩).2.2.2.1 (by decide)
  exact ⟨h1, h2, h3⟩

/-! ## Claim C7: clone round-trip -/

theorem latent_foldl_add (l : List LatentKeyframe) :
    ∀ c : LatentKeyframeGroup,
      (l.foldl (fun g tk => g.add tk) c).keyframes =
        l.foldl (fun ks tk =>
          sortByKey (fun x : LatentKeyframe => x.batch_index)
            (replaceOrAppend (fun x : LatentKeyframe => x.batch_index) tk ks))
          c.keyframes := by
  induction l with
  | nil => intro c; rfl
  | cons a l ih =>
    intro c
    simp only [List.foldl_cons]
    rw [ih]
    rfl

theorem timestep_foldl_add (l : List TimestepKeyframe) :
    ∀ c : TimestepKeyframeGroup,
      (l.foldl (fun g tk => g.add tk) c).keyframes =
        l.foldl (fun ks tk =>
          sortByKey (fun x : TimestepKeyframe => x.start_percent)
            (replaceOrAppend (fun x : TimestepKeyframe => x.start_percent) tk ks))
          c.keyframes := by
  induction l with
  | nil => intro c; rfl
  | cons a l ih =>
    intro c
    simp only [List.foldl_cons]
    rw [ih]
    rfl

/-- Folding insert-or-replace-then-sort over a strictly sorted tail onto a
compatible accumulator just appends the tail. -/
theorem foldl_addSorted_of_strictSorted [LinearOrder β] (key : α → β) :
    ∀ (l acc : List α),
      (acc ++ l).Pairwise (fun x y => key x < key y) →
      l.foldl (fun ks a => sortByKey key (replaceOrAppend key a ks)) acc = acc ++ l := by
  intro l
  induction l with
  | nil =>
    intro acc _
    simp
  | cons a l ih =>
    intro acc h
    simp only [List.foldl_cons]
    have hne : ∀ b ∈ acc, key b ≠ key a := by
      intro b hb
      exact ne_of_lt ((List.pairwise_append.mp h).2.2 b hb a (List.mem_cons_self a l))
    rw [replaceOrAppend_of_forall_ne key a acc hne]
    have hsub : List.Sublist (acc ++ [a]) (acc ++ a :: l) :=
      List.Sublist.append_left (List.Sublist.cons₂ a (List.nil_sublist l)) acc
    have hsorted : (acc ++ [a]).Pairwise (fun x y => key x ≤ key y) :=
      (h.sublist hsub).imp le_of_lt
    rw [sortByKey_eq_of_sorted key _ hsorted]
    have h' : ((acc ++ [a]) ++ l).Pairwise (fun x y => key x < key y) := by
      simpa [List.append_assoc] using h
    rw [ih (acc ++ [a]) h']
    simp [List.append_assoc]

/-- A timestep keyframe at start percent 0.5 with default remaining fields. -/
def tkHalf : TimestepKeyframe :=
  { TimestepKeyframe.default with start_percent := 1/2 }

/-- C7 counterexample: the group built by TimestepKeyframeGroup.default
with a keyframe at start percent 0.5 has exactly one entry, but its clone
re-seeds the default 0.0 keyframe and therefore has two entries — the
clone is not equal by value to the original. -/
theorem c7_counterexample :
    (TimestepKeyframeGroup.defaultGroup tkHalf).clone.keyframes.length = 2
    ∧ (TimestepKeyframeGroup.defaultGroup tkHalf).keyframes.length = 1 := by
  constructor
  · norm_num [TimestepKeyframeGroup.defaultGroup, TimestepKeyframeGroup.clone,
      TimestepKeyframeGroup.add, TimestepKeyframeGroup.init, replaceOrAppend,
      sortByKey, insertSorted, tkHalf, TimestepKeyframe.default]
  · rfl

/-- C7 amended: for groups in the maintained invariant state (strictly
sorted keys), clone reproduces exactly the original sequence of keyframes
— unconditionally for latent groups, and for timestep groups provided the
group contains a keyframe at start percent 0.0 (and the start percents are
non-negative), since the clone's freshly seeded default 0.0 entry is then
replaced; the keyframe entries themselves are shared between original and
clone (Python copies references), so equality is by value at cloning time. -/
theorem c7_clone_amended :
    (∀ g : LatentKeyframeGroup,
      g.keyframes.Pairwise (fun a b => a.batch_index < b.batch_index) →
      g.clone.keyframes = g.keyframes)
    ∧ (∀ g : TimestepKeyframeGroup,
      g.keyframes.Pairwise (fun a b => a.start_percent < b.start_percent) →
      (∀ k ∈ g.keyframes, 0 ≤ k.start_percent) →
      (∃ k ∈ g.keyframes, k.start_percent = 0) →
      g.clone.keyframes = g.keyframes) := by
  constructor
  · intro g h
    show (g.keyframes.foldl (fun c tk => c.add tk)
      (⟨[]⟩ : LatentKeyframeGroup)).keyframes = g.keyframes
    rw [latent_foldl_add]
    exact foldl_addSorted_of_strictSorted
      (fun x : LatentKeyframe => x.batch_index) g.keyframes [] (by simpa using h)
  · intro g h h0 hex
    show (g.keyframes.foldl (fun c tk => c.add tk)
      TimestepKeyframeGroup.init).keyframes = g.keyframes
    rw [timestep_foldl_add]
    obtain ⟨k0, hk0mem, hk00⟩ := hex
    rcases hgk : g.keyframes with _ | ⟨a, rest⟩
    · rw [hgk] at hk0mem
      cases hk0mem
    · rw [hgk] at h h0 hk0mem
      have ha0 : a.start_percent = 0 := by
        rcases List.mem_cons.mp hk0mem with rfl | hmem
        · exact hk00
        · have hlt := (List.pairwise_cons.mp h).1 k0 hmem
          have h0a := h0 a (List.mem_cons_self a rest)
          rw [hk00] at hlt
          linarith
      simp only [List.foldl_cons]
      have hstep : sortByKey (fun x : TimestepKeyframe => x.start_percent)
          (replaceOrAppend (fun x : TimestepKeyframe => x.start_percent) a
            TimestepKeyframeGroup.init.keyframes) = [a] := by
        show sortByKey _ (replaceOrAppend _ a [TimestepKeyframe.default]) = [a]
        simp only [replaceOrAppend]
        rw [if_pos]
        · rfl
        · show TimestepKeyframe.default.start_percent = a.start_percent
          rw [ha0]
          rfl
      rw [hstep]
      exact foldl_addSorted_of_strictSorted
        (fun x : TimestepKeyframe => x.start_percent) rest [a] (by simpa using h)

theorem c7_clone_amended_witness :
    lgTwo.clone.keyframes = lgTwo.keyframes
    ∧ TimestepKeyframeGroup.init.clone.keyframes =
        TimestepKeyframeGroup.init.keyframes := by
  constructor
  · exact c7_clone_amended.1 lgTwo (by decide)
  · refine c7_clone_amended.2 TimestepKeyframeGroup.init ?_ ?_ ?_
    · simp [TimestepKeyframeGroup.init]
    · intro k hk
      simp [TimestepKeyframeGroup.init] at hk
      rw [hk]
      exact le_refl _
    · exact ⟨TimestepKeyframe.default, by simp [TimestepKeyframeGroup.init], rfl⟩

/-! ## Claims C1 and C3: control_merge structure and chain accumulation -/

theorem mergeLists_length (o p : List (Option Tensor)) :
    (mergeLists o p).length = max o.length p.length := by
  induction o generalizing p with
  | nil => cases p <;> simp [mergeLists]
  | cons a o ih =>
    cases p with
    | nil => simp [mergeLists]
    | cons b p =>
      simp only [mergeLists, List.length_cons, ih]
      omega

theorem mergeLists_get?_of_le (o : List (Option Tensor)) :
    ∀ (p : List (Option Tensor)) (i : Nat), o.length ≤ i →
      (mergeLists o p).get? i = p.get? i := by
  induction o with
  | nil => intro p i _; cases p <;> simp [mergeLists]
  | cons a o ih =>
    intro p i h
    cases p with
    | nil =>
      show (a :: o).get? i = List.get? [] i
      rw [List.get?_eq_none.mpr h, List.get?_nil]
    | cons b p =>
      cases i with
      | zero => simp at h
      | succ i =>
        show (mergeLists (a :: o) (b :: p)).get? (i + 1) = (b :: p).get? (i + 1)
        simp only [mergeLists, List.get?_cons_succ]
        exact ih p i (by simpa using h)

theorem mergeLists_get?_adopt (o : List (Option Tensor)) :
    ∀ (p : List (Option Tensor)) (i : Nat) (t : Tensor),
      o.get? i = some none → p.get? i = some (some t) →
      (mergeLists o p).get? i = some (some t) := by
  induction o with
  | nil => intro p i t ho _; simp at ho
  | cons a o ih =>
    intro p i t ho hp
    cases p with
    | nil => simp at hp
    | cons b p =>
      cases i with
      | zero =>
        simp only [List.get?_cons_zero, Option.some.injEq] at ho hp
        subst ho
        subst hp
        rfl
      | succ i =>
        simp only [List.get?_cons_succ] at ho hp
        simp only [mergeLists, List.get?_cons_succ]
        exact ih p i t ho hp

theorem mergeLists_get?_add (o : List (Option Tensor)) :
    ∀ (p : List (Option Tensor)) (i : Nat) (a b : Tensor),
      o.get? i = some (some a) → p.get? i = some (some b) →
      (mergeLists o p).get? i = some (some (tensorAdd a b)) := by
  induction o with
  | nil => intro p i a b ho _; simp at ho
  | cons x o ih =>
    intro p i a b ho hp
    cases p with
    | nil => simp at hp
    | cons y p =>
      cases i with
      | zero =>
        simp only [List.get?_cons_zero, Option.some.injEq] at ho hp
        subst ho
        subst hp
        rfl
      | succ i =>
        simp only [List.get?_cons_succ] at ho hp
        simp only [mergeLists, List.get?_cons_succ]
        exact ih p i a b ho hp

/-- The per-node output layers used in the mocked chain of three nodes:
two layers, each the constant tensor [[v]]. -/
def chainLayers (v : ℚ) : Option (List (Option Tensor)) :=
  some [some [[v]], some [[v]]]

/-- C1: merging with a previous chain result works per list and
element-wise — extra previous entries are appended, a previous entry is
adopted where the current entry is absent, and two present entries are
added element-wise; consequently the three-node chain with constant layer
values 2.0, 3.0, 5.0 at strength 1.0 and unit weights merges to 10.0 at
that layer position. -/
theorem c1_chain_merge_accumulates :
    (∀ (s : AdvancedControlBase) (ci co : Option (List (Option Tensor)))
       (p base : ControlOutput),
      control_merge_inject s ci co none = some base →
      control_merge_inject s ci co (some p) =
        some ⟨mergeLists base.input p.input, mergeLists base.middle p.middle,
              mergeLists base.output p.output⟩)
    ∧ (∀ (o p : List (Option Tensor)) (i : Nat),
        o.length ≤ i → (mergeLists o p).get? i = p.get? i)
    ∧ (∀ (o p : List (Option Tensor)) (i : Nat) (t : Tensor),
        o.get? i = some none → p.get? i = some (some t) →
        (mergeLists o p).get? i = some (some t))
    ∧ (∀ (o p : List (Option Tensor)) (i : Nat) (a b : Tensor),
        o.get? i = some (some a) → p.get? i = some (some b) →
        (mergeLists o p).get? i = some (some (tensorAdd a b)))
    ∧ ((control_merge_inject unitState none (chainLayers 2) none).bind (fun r1 =>
        (control_merge_inject unitState none (chainLayers 3) (some r1)).bind (fun r2 =>
          control_merge_inject unitState none (chainLayers 5) (some r2))) =
        some ⟨[], [some [[10]]], [some [[10]]]⟩) := by
  refine ⟨?_, ?_, ?_, ?_, ?_⟩
  · intro s ci co p base h
    unfold control_merge_inject at h ⊢
    rcases h1 : procInputs s ci with _ | inp
    · simp [h1] at h
    · rcases h2 : procOutputs s co with _ | ⟨mid, outp⟩
      · simp [h1, h2] at h
      · simp only [h1, h2, Option.some.injEq] at h
        subst h
        simp only [h1, h2]
  · exact fun o p i h => mergeLists_get?_of_le o p i h
  · exact fun o p i t ho hp => mergeLists_get?_adopt o p i t ho hp
  · exact fun o p i a b ho hp => mergeLists_get?_add o p i a b ho hp
  · norm_num [control_merge_inject, procInputs, procOutputs, procList, procOne,
      apply_advanced_strengths_and_masks, unitState, chainLayers,
      ControlWeights.controlnet, ControlWeights.make, ControlWeights.get, pyGet,
      pyIdx, TimestepKeyframe.default, tensorScale, mergeLists, tensorAdd,
      List.zipWith]

theorem c1_chain_merge_accumulates_witness :
    control_merge_inject unitState none (chainLayers 3)
      (some ⟨[], [some [[2]]], [some [[2]]]⟩) =
      some ⟨mergeLists [] [], mergeLists [some [[3]]] [some [[2]]],
            mergeLists [some [[3]]] [some [[2]]]⟩ := by
  have hbase : control_merge_inject unitState none (chainLayers 3) none =
      some ⟨[], [some [[3]]], [some [[3]]]⟩ := by
    norm_num [control_merge_inject, procInputs, procOutputs, procList, procOne,
      apply_advanced_strengths_and_masks, unitState, chainLayers,
      ControlWeights.controlnet, ControlWeights.make, ControlWeights.get, pyGet,
      pyIdx, TimestepKeyframe.default, tensorScale]
  exact c1_chain_merge_accumulates.1 unitState none (chainLayers 3)
    ⟨[], [some [[2]]], [some [[2]]]⟩ ⟨[], [some [[3]]], [some [[3]]]⟩ hbase

/-- C3 counterexample: with two distinct input layers the merged input
list is the processed layers in reverse order (each processed layer is
inserted at index 0), so the i-th merged input entry is not derived from
the i-th given input layer. -/
theorem c3_counterexample :
    (control_merge_inject unitState (some [some [[1]], some [[2]]])
        (some [some [[0]]]) none).map ControlOutput.input =
      some [some [[2]], some [[1]]]
    ∧ procList unitState false 0 [some [[1]], some [[2]]] =
      some [some [[1]], some [[2]]]
    ∧ (some [some [[2]], some [[1]]] : Option (List (Option Tensor))) ≠
      some [some [[1]], some [[2]]] := by
  refine ⟨?_, ?_, ?_⟩
  · norm_num [control_merge_inject, procInputs, procOutputs, procList, procOne,
      apply_advanced_strengths_and_masks, unitState,
      ControlWeights.controlnet, ControlWeights.make, ControlWeights.get, pyGet,
      pyIdx, TimestepKeyframe.default, tensorScale]
  · norm_num [procList, procOne, apply_advanced_strengths_and_masks, unitState,
      ControlWeights.controlnet, ControlWeights.make, ControlWeights.get, pyGet,
      pyIdx, TimestepKeyframe.default, tensorScale]
  · norm_num

/-- C3 amended: with non-empty input and output layer lists, the last
output layer becomes the sole middle entry and the other output layers
become the output entries in original order, as claimed; but the input
list holds the processed input layers in REVERSED order (each layer is
inserted at the front), not in the original order. -/
theorem c3_amended (s : AdvancedControlBase) (ci co : List (Option Tensor))
    (pin pout : List (Option Tensor)) (t : Option Tensor)
    (hin : procList s false 0 ci = some pin)
    (hout : procList s s.global_average_pooling 0 co = some pout)
    (hlast : pout.getLast? = some t) :
    control_merge_inject s (some ci) (some co) none =
      some ⟨pin.reverse, [t], pout.dropLast⟩ := by
  unfold control_merge_inject procInputs procOutputs
  simp only [hin, hout, Option.map_some', hlast]

theorem c3_amended_witness :
    control_merge_inject unitState (some [some [[1]], some [[2]]])
      (some [some [[0]]]) none =
      some ⟨[some [[2]], some [[1]]], [some [[0]]], []⟩ := by
  have hin : procList unitState false 0 [some [[1]], some [[2]]] =
      some [some [[1]], some [[2]]] := by
    norm_num [procList, procOne, apply_advanced_strengths_and_masks, unitState,
      ControlWeights.controlnet, ControlWeights.make, ControlWeights.get, pyGet,
      pyIdx, TimestepKeyframe.default, tensorScale]
  have hout : procList unitState unitState.global_average_pooling 0 [some [[0]]] =
      some [some [[0]]] := by
    norm_num [procList, procOne, apply_advanced_strengths_and_masks, unitState,
      ControlWeights.controlnet, ControlWeights.make, ControlWeights.get, pyGet,
      pyIdx, TimestepKeyframe.default, tensorScale]
  have h := c3_amended unitState [some [[1]], some [[2]]] [some [[0]]]
    [some [[1]], some [[2]]] [some [[0]]] (some [[0]]) hin hout (by simp)
  simpa using h

/-! ## Claim C6: latent strength and null-strength application -/

theorem pyModify_natCast {α : Type} (l : List α) (n : Nat) (f : α → α) :
    pyModify l (n : Int) f = (l.get? n).map (fun a => l.set n (f a)) := by
  unfold pyModify pyIdx
  simp only [List.get?_eq_getElem?]
  have hnn : ¬((n : Int) < 0) := by omega
  rw [if_neg hnn]
  by_cases h : n < l.length
  · rw [if_pos ⟨by omega, by exact_mod_cast h⟩, Int.toNat_natCast]
    cases hg : l[n]? <;> simp [hg]
  · rw [if_neg (by omega)]
    rw [List.getElem?_eq_none (by omega)]
    rfl

/-- Pointwise description of the per-keyframe cond/uncond scaling loop:
slot j is multiplied by str in every completed sub-batch, everything else
is untouched. -/
theorem scaleSlots_spec (lc : Nat) (j : Nat) (hj : j < lc) (str : ℚ)
    (bntot : Nat) (x : Tensor) (hx : x.length = bntot * lc) :
    ∀ bn, bn ≤ bntot →
      ∃ y, scaleSlots lc (j : Int) str x bn = some y ∧
        y.length = x.length ∧
        ∀ p : Nat, y.get? p =
          if p % lc = j ∧ p / lc < bn then (x.get? p).map (List.map (· * str))
          else x.get? p := by
  have hlc : 0 < lc := lt_of_le_of_lt (Nat.zero_le j) hj
  intro bn
  induction bn with
  | zero =>
    intro _
    exact ⟨x, rfl, rfl, fun p => by
      rw [if_neg (fun hc => Nat.not_lt_zero _ hc.2)]⟩
  | succ b ihb =>
    intro hble
    obtain ⟨y0, hy0, hlen0, hpt0⟩ := ihb (Nat.le_of_succ_le hble)
    have hq : lc * b + j < x.length := by
      rw [hx]
      calc lc * b + j < lc * b + lc := by omega
        _ = lc * (b + 1) := by ring
        _ ≤ lc * bntot := Nat.mul_le_mul_left lc hble
        _ = bntot * lc := Nat.mul_comm lc bntot
    have hqdiv : (lc * b + j) / lc = b := by
      rw [Nat.mul_add_div hlc, Nat.div_eq_of_lt hj]
      omega
    have hqmod : (lc * b + j) % lc = j := by
      rw [Nat.mul_add_mod, Nat.mod_eq_of_lt hj]
    have hq0 : y0.get? (lc * b + j) = x.get? (lc * b + j) := by
      rw [hpt0]
      rw [if_neg]
      rintro ⟨_, h2⟩
      rw [hqdiv] at h2
      omega
    have hqel : ∃ a, x.get? (lc * b + j) = some a := by
      cases hg : x.get? (lc * b + j) with
      | none => exact absurd (List.get?_eq_none.mp hg) (by omega)
      | some a => exact ⟨a, rfl⟩
    obtain ⟨a, ha⟩ := hqel
    refine ⟨y0.set (lc * b + j) (List.map (· * str) a), ?_, ?_, ?_⟩
    · show (match scaleSlots lc (j : Int) str x b with
        | none => none
        | some x' => pyModify x' (((lc * b : Nat) : Int) + (j : Int))
            (List.map (· * str))) = _
      rw [hy0]
      show pyModify y0 (((lc * b : Nat) : Int) + (j : Int)) (List.map (· * str)) = _
      have hidx : ((lc * b : Nat) : Int) + (j : Int) = ((lc * b + j : Nat) : Int) := by
        push_cast
        ring
      rw [hidx, pyModify_natCast, hq0, ha]
      rfl
    · rw [List.length_set, hlen0]
    · intro p
      by_cases hp : p = lc * b + j
      · subst hp
        rw [List.get?_set_of_lt' _ _ (by rw [hlen0]; exact hq), if_pos rfl, ha,
          if_pos ⟨hqmod, by rw [hqdiv]; omega⟩]
        rfl
      · rw [List.get?_set_of_lt' _ _ (by rw [hlen0]; exact hq),
          if_neg (fun hh => hp hh.symm), hpt0 p]
        by_cases hc : p % lc = j ∧ p / lc < b
        · rw [if_pos hc, if_pos ⟨hc.1, Nat.lt_succ_of_lt hc.2⟩]
        · rw [if_neg hc, if_neg ?_]
          rintro ⟨h1, h2⟩
          rcases Nat.lt_succ_iff_lt_or_eq.mp h2 with hlt | heq
          · exact hc ⟨h1, hlt⟩
          · apply hp
            have hdm := Nat.div_add_mod p lc
            rw [heq, h1] at hdm
            omega

/-- The per-keyframe step with no sub_idxs mapping, phrased through
resolveIndex. -/
theorem latentStep_none (lc bn : Nat) (x : Tensor) (tn : List Int)
    (k : LatentKeyframe) :
    latentStep lc bn (lc : Int) none (x, tn) k =
      (match scaleSlots lc (resolveIndex lc k) k.strength x bn with
       | none => none
       | some x' =>
         some (x', if resolveIndex lc k ∈ tn then tn.erase (resolveIndex lc k)
                   else tn)) := rfl

/-- Pointwise description of the keyframe loop under the C6 hypotheses:
each resolved slot is scaled by its keyframe's strength in every
cond/uncond sub-batch, to-null keeps exactly the unresolved entries. -/
theorem latentLoop_spec (lc bntot : Nat) :
    ∀ (ks : List LatentKeyframe) (x : Tensor) (tn : List Int),
      x.length = bntot * lc →
      (∀ k ∈ ks, 0 ≤ resolveIndex lc k ∧ resolveIndex lc k < (lc : Int)) →
      (ks.map (resolveIndex lc)).Nodup →
      (∀ k ∈ ks, resolveIndex lc k ∈ tn) →
      tn.Nodup →
      ∃ y tn', latentLoop lc bntot (lc : Int) none x tn ks = some (y, tn') ∧
        y.length = x.length ∧ tn'.Nodup ∧
        (∀ j : Int, j ∈ tn' ↔ (j ∈ tn ∧ ∀ k ∈ ks, resolveIndex lc k ≠ j)) ∧
        (∀ p : Nat, y.get? p = (x.get? p).map
          (List.map (· * loopMultiplier lc ks ((p % lc : Nat) : Int)))) := by
  intro ks
  induction ks with
  | nil =>
    intro x tn hx _ _ _ htn
    refine ⟨x, tn, rfl, rfl, htn, fun j => by simp, fun p => ?_⟩
    have hm : loopMultiplier lc [] ((p % lc : Nat) : Int) = 1 := rfl
    rw [hm]
    cases x.get? p <;> simp [mul_one]
  | cons k rest ih =>
    intro x tn hx hrange hnd hmem htn
    have hk := hrange k (List.mem_cons_self k rest)
    have hlcpos : 0 < lc := by
      rcases hk with ⟨h1, h2⟩
      by_contra hc
      push_neg at hc
      interval_cases lc
      omega
    obtain ⟨j0, hj0, hj0lt⟩ : ∃ j0 : Nat, resolveIndex lc k = (j0 : Int) ∧ j0 < lc := by
      refine ⟨(resolveIndex lc k).toNat, ?_, ?_⟩ <;> omega
    obtain ⟨x1, hx1, hlen1, hpt1⟩ :=
      scaleSlots_spec lc j0 hj0lt k.strength bntot x hx bntot (le_refl _)
    have hndmap := hnd
    rw [List.map_cons, List.nodup_cons] at hndmap
    obtain ⟨hheadnot, hndtail⟩ := hndmap
    have hmem' : ∀ k' ∈ rest, resolveIndex lc k' ∈ tn.erase (resolveIndex lc k) := by
      intro k' hk'
      refine (htn.mem_erase_iff).mpr ⟨?_, hmem k' (List.mem_cons_of_mem k hk')⟩
      intro he
      exact hheadnot (he ▸ List.mem_map_of_mem (resolveIndex lc) hk')
    obtain ⟨y, tn', hloop, hleny, hnd', hiff, hpt⟩ :=
      ih x1 (tn.erase (resolveIndex lc k)) (hlen1.trans hx)
        (fun k' hk' => hrange k' (List.mem_cons_of_mem k hk'))
        hndtail hmem' (htn.erase _)
    refine ⟨y, tn', ?_, hleny.trans hlen1, hnd', ?_, ?_⟩
    · show (match latentStep lc bntot (lc : Int) none (x, tn) k with
        | none => none
        | some (x', tn') => latentLoop lc bntot (lc : Int) none x' tn' rest) =
        some (y, tn')
      rw [latentStep_none, hj0, hx1]
      rw [if_pos (hj0 ▸ hmem k (List.mem_cons_self k rest))]
      rw [← hj0]
      exact hloop
    · intro j
      rw [hiff j, htn.mem_erase_iff]
      constructor
      · rintro ⟨⟨hne, hjtn⟩, hrest⟩
        refine ⟨hjtn, ?_⟩
        intro k' hk'
        rcases List.mem_cons.mp hk' with rfl | h'
        · exact fun he => hne he.symm
        · exact hrest k' h'
      · rintro ⟨hjtn, hall⟩
        refine ⟨⟨?_, hjtn⟩, fun k' h' => hall k' (List.mem_cons_of_mem k h')⟩
        exact Ne.symm (hall k (List.mem_cons_self k rest))
    · intro p
      rw [hpt p, hpt1 p]
      have hmcons : loopMultiplier lc (k :: rest) ((p % lc : Nat) : Int) =
          if resolveIndex lc k = ((p % lc : Nat) : Int) then k.strength
          else loopMultiplier lc rest ((p % lc : Nat) : Int) := by
        unfold loopMultiplier
        by_cases hc : resolveIndex lc k = ((p % lc : Nat) : Int)
        · rw [List.find?_cons_of_pos _ (by simpa using hc), if_pos hc]
        · rw [List.find?_cons_of_neg _ (by simpa using hc), if_neg hc]
      by_cases hcase : p % lc = j0 ∧ p / lc < bntot
      · rw [if_pos hcase]
        have hjp : resolveIndex lc k = ((p % lc : Nat) : Int) := by
          rw [hj0, hcase.1]
        have hrestone : loopMultiplier lc rest ((p % lc : Nat) : Int) = 1 := by
          unfold loopMultiplier
          rw [List.find?_eq_none.mpr ?_]
          intro k' hk'
          simp only [decide_eq_true_eq]
          intro he
          exact hheadnot
            ((he.trans hjp.symm) ▸ List.mem_map_of_mem (resolveIndex lc) hk')
        rw [hmcons, if_pos hjp, hrestone]
        cases x.get? p <;> simp [List.map_map, Function.comp, mul_one]
      · rw [if_neg hcase]
        by_cases hpm : p % lc = j0
        · have hge : bntot ≤ p / lc := by
            by_contra hc
            push_neg at hc
            exact hcase ⟨hpm, hc⟩
          have hplen : x.length ≤ p := by
            rw [hx]
            calc bntot * lc ≤ (p / lc) * lc := Nat.mul_le_mul_right lc hge
              _ ≤ p := Nat.div_mul_le_self p lc
          rw [List.get?_eq_none.mpr hplen]
          rfl
        · have hne : resolveIndex lc k ≠ ((p % lc : Nat) : Int) := by
            rw [hj0]
            intro he
            exact hpm (by exact_mod_cast he.symm)
          rw [hmcons, if_neg hne]

/-- Pointwise description of the null-out loop: every slot whose residue
is in the to-null list is scaled by the null strength. -/
theorem nullLoop_spec (lc bntot : Nat) (nullStr : ℚ) :
    ∀ (tn : List Int) (x : Tensor),
      x.length = bntot * lc →
      tn.Nodup →
      (∀ j ∈ tn, 0 ≤ j ∧ j < (lc : Int)) →
      ∃ y, nullLoop lc bntot nullStr x tn = some y ∧
        y.length = x.length ∧
        ∀ p : Nat, y.get? p =
          if ((p % lc : Nat) : Int) ∈ tn then
            (x.get? p).map (List.map (· * nullStr))
          else x.get? p := by
  intro tn
  induction tn with
  | nil =>
    intro x hx _ _
    exact ⟨x, rfl, rfl, fun p => by simp⟩
  | cons j js ih =>
    intro x hx hnd hrange
    have hj := hrange j (List.mem_cons_self j js)
    obtain ⟨j0, hj0, hj0lt⟩ : ∃ j0 : Nat, j = (j0 : Int) ∧ j0 < lc := by
      refine ⟨j.toNat, ?_, ?_⟩ <;> omega
    obtain ⟨x1, hx1, hlen1, hpt1⟩ :=
      scaleSlots_spec lc j0 hj0lt nullStr bntot x hx bntot (le_refl _)
    obtain ⟨y, hy, hleny, hpty⟩ := ih x1 (hlen1.trans hx)
      (List.Nodup.of_cons hnd)
      (fun a ha => hrange a (List.mem_cons_of_mem j ha))
    refine ⟨y, ?_, hleny.trans hlen1, ?_⟩
    · show (match scaleSlots lc j nullStr x bntot with
        | none => none
        | some x' => nullLoop lc bntot nullStr x' js) = some y
      rw [hj0, hx1]
      exact hy
    · intro p
      rw [hpty p]
      by_cases hpj : ((p % lc : Nat) : Int) = j
      · have hpj0 : p % lc = j0 := by
          rw [hj0] at hpj
          exact_mod_cast hpj
        have hnotjs : ((p % lc : Nat) : Int) ∉ js := by
          rw [hpj]
          exact (List.nodup_cons.mp hnd).1
        rw [if_neg hnotjs, hpt1 p]
        by_cases hrange2 : p / lc < bntot
        · rw [if_pos ⟨hpj0, hrange2⟩,
            if_pos (by rw [hpj] ; exact List.mem_cons_self j js)]
        · have hplen : x.length ≤ p := by
            rw [hx]
            have hge : bntot ≤ p / lc := by omega
            calc bntot * lc ≤ (p / lc) * lc := Nat.mul_le_mul_right lc hge
              _ ≤ p := Nat.div_mul_le_self p lc
          rw [if_neg (fun hc => hrange2 hc.2),
            if_pos (by rw [hpj] ; exact List.mem_cons_self j js),
            List.get?_eq_none.mpr hplen]
          rfl
      · have hpj0 : p % lc ≠ j0 := by
          intro he
          exact hpj (by rw [hj0, he])
        have hC : ¬(p % lc = j0 ∧ p / lc < bntot) := fun hc => hpj0 hc.1
        by_cases hjs : ((p % lc : Nat) : Int) ∈ js
        · rw [if_pos hjs, hpt1 p, if_neg hC,
            if_pos (List.mem_cons_of_mem j hjs)]
        · rw [if_neg hjs, hpt1 p, if_neg hC, if_neg ?_]
          rw [List.mem_cons]
          rintro (h | h)
          · exact hpj h
          · exact hjs h

/-- The controller state of the claim's concrete example: latent timeline
[(0, 2.0), (2, 0.5)], null strength 0.0, keyframe strength 1.0, no masks,
no sub-batch, batched count 1. -/
def sLatC6 : AdvancedControlBase :=
  { unitState with latent_keyframes := some ⟨[⟨0, 2⟩, ⟨2, 1/2⟩]⟩ }

/-- The controller state of the negative-index example: latent timeline
[(-1, 5.0)] with null strength 1.0 so that only the resolved slot changes. -/
def sNegC6 : AdvancedControlBase :=
  { unitState with
    latent_keyframes := some ⟨[⟨-1, 5⟩]⟩
    current_timestep_keyframe :=
      some { TimestepKeyframe.default with null_latent_kf_strength := 1 } }

/-- C6: with a resolved latent keyframe group and no subset indices (and
no masks, neutral keyframe strength), apply_advanced_strengths_and_masks
multiplies, within each cond/uncond sub-batch, every slot a keyframe
resolves to by that keyframe's strength and every other slot by the
active keyframe's null_latent_kf_strength; a negative batch index counts
from the end (resolveIndex adds the latent count).  Concretely: timeline
[(0, 2.0), (2, 0.5)] over a batch of 4 with null strength 0 scales slot 0
by 2, slot 2 by 0.5 and zeroes slots 1 and 3; and batch index -1 in a
4-slot batch resolves to slot 3. -/
theorem c6_latent_strengths :
    (∀ (s : AdvancedControlBase) (g : LatentKeyframeGroup) (kf : TimestepKeyframe)
       (x : Tensor) (bn : Nat),
      s.latent_keyframes = some g →
      s.current_timestep_keyframe = some kf →
      kf.strength = 1 →
      s.sub_idxs = none →
      s.mask_cond_hint = none →
      s.tk_mask_cond_hint = none →
      s.batched_number = some bn →
      0 < bn →
      x.length = bn * (x.length / bn) →
      (∀ k ∈ g.keyframes, 0 ≤ resolveIndex (x.length / bn) k ∧
        resolveIndex (x.length / bn) k < ((x.length / bn : Nat) : Int)) →
      (g.keyframes.map (resolveIndex (x.length / bn))).Nodup →
      ∃ y, apply_advanced_strengths_and_masks s x = some y ∧
        y.length = x.length ∧
        ∀ b j : Nat, b < bn → j < x.length / bn →
          y.get? ((x.length / bn) * b + j) =
            (x.get? ((x.length / bn) * b + j)).map
              (List.map (· * latentStrengthSpec (x.length / bn) g
                kf.null_latent_kf_strength j)))
    ∧ apply_advanced_strengths_and_masks sLatC6 [[1], [1], [1], [1]] =
        some [[2], [0], [1/2], [0]]
    ∧ apply_advanced_strengths_and_masks sNegC6 [[1], [1], [1], [1]] =
        some [[1], [1], [1], [5]] := by
  refine ⟨?_, ?_, ?_⟩
  · intro s g kf x bn hl hkf hstr hsub hm1 hm2 hbn hbnpos hdiv hrange hnd
    have htn0 : ((List.range (x.length / bn)).map (fun n : Nat => (n : Int))).Nodup :=
      (List.nodup_range _).map (fun a b h => by omega)
    have hmem0 : ∀ k ∈ g.keyframes,
        resolveIndex (x.length / bn) k ∈
          (List.range (x.length / bn)).map (fun n : Nat => (n : Int)) := by
      intro k hk
      obtain ⟨h1, h2⟩ := hrange k hk
      exact List.mem_map.mpr ⟨(resolveIndex (x.length / bn) k).toNat,
        List.mem_range.mpr (by omega), by omega⟩
    obtain ⟨y1, tn', hloop, hlen1, hnd', hiff, hpt1⟩ :=
      latentLoop_spec (x.length / bn) bn g.keyframes x
        ((List.range (x.length / bn)).map (fun n : Nat => (n : Int))) hdiv hrange hnd hmem0 htn0
    have hrange' : ∀ jk ∈ tn', 0 ≤ jk ∧ jk < ((x.length / bn : Nat) : Int) := by
      intro jk hjk
      have h0 := ((hiff jk).mp hjk).1
      obtain ⟨n, hn, rfl⟩ := List.mem_map.mp h0
      have := List.mem_range.mp hn
      constructor <;> omega
    obtain ⟨y, hnull, hleny, hpty⟩ :=
      nullLoop_spec (x.length / bn) bn kf.null_latent_kf_strength tn' y1
        (hlen1.trans hdiv) hnd' hrange'
    refine ⟨y, ?_, hleny.trans hlen1, ?_⟩
    · simp only [apply_advanced_strengths_and_masks, hkf, hl, hbn, hsub, hm1, hm2]
      rw [if_neg (by omega : ¬bn = 0)]
      simp only [hloop, hnull, hstr]
      simp
    · intro b j hb hj
      have hpmod : ((x.length / bn) * b + j) % (x.length / bn) = j := by
        rw [Nat.mul_add_mod, Nat.mod_eq_of_lt hj]
      cases hf : g.keyframes.find?
          (fun k => resolveIndex (x.length / bn) k = (j : Int)) with
      | some k =>
        have hkmem : k ∈ g.keyframes := List.mem_of_find?_eq_some hf
        have hkres : resolveIndex (x.length / bn) k = (j : Int) := by
          simpa using List.find?_some hf
        have hspec : latentStrengthSpec (x.length / bn) g
            kf.null_latent_kf_strength j = k.strength := by
          unfold latentStrengthSpec
          rw [hf]
        have hnotin : (((((x.length / bn) * b + j) % (x.length / bn) : Nat)) : Int) ∉
            tn' := by
          rw [hpmod]
          intro hin
          exact ((hiff _).mp hin).2 k hkmem hkres
        have hmult : loopMultiplier (x.length / bn) g.keyframes
            (((((x.length / bn) * b + j) % (x.length / bn) : Nat)) : Int) =
            k.strength := by
          unfold loopMultiplier
          rw [hpmod, hf]
        rw [hpty _, if_neg hnotin, hpt1 _, hmult, hspec]
      | none =>
        have hspec : latentStrengthSpec (x.length / bn) g
            kf.null_latent_kf_strength j = kf.null_latent_kf_strength := by
          unfold latentStrengthSpec
          rw [hf]
        have hin : (((((x.length / bn) * b + j) % (x.length / bn) : Nat)) : Int) ∈
            tn' := by
          rw [hpmod]
          refine (hiff _).mpr ⟨List.mem_map.mpr ⟨j, List.mem_range.mpr hj, rfl⟩, ?_⟩
          intro k' hk' he
          have hnone := List.find?_eq_none.mp hf k' hk'
          simp only [decide_eq_true_eq] at hnone
          exact hnone he
        have hmult1 : loopMultiplier (x.length / bn) g.keyframes
            (((((x.length / bn) * b + j) % (x.length / bn) : Nat)) : Int) = 1 := by
          unfold loopMultiplier
          rw [hpmod, hf]
        rw [hpty _, if_pos hin, hpt1 _, hmult1, hspec]
        cases x.get? ((x.length / bn) * b + j) <;>
          simp [List.map_map, Function.comp, mul_one]
  · norm_num [apply_advanced_strengths_and_masks, sLatC6, unitState,
      TimestepKeyframe.default, latentLoop, latentStep, nullLoop, scaleSlots,
      pyModify, pyIdx, List.range_succ, Int.toNat_ofNat, List.set,
      show Int.toNat 2 = 2 from rfl, show Int.toNat 3 = 3 from rfl]
  · norm_num [apply_advanced_strengths_and_masks, sNegC6, unitState,
      TimestepKeyframe.default, latentLoop, latentStep, nullLoop, scaleSlots,
      pyModify, pyIdx, List.range_succ, Int.toNat_ofNat, List.set,
      show Int.toNat 2 = 2 from rfl, show Int.toNat 3 = 3 from rfl,
      show Int.toNat 1 = 1 from rfl, show ((-1 : Int) + 4) = 3 from rfl]

theorem c6_latent_strengths_witness :
    ∃ y, apply_advanced_strengths_and_masks sLatC6 [[1], [1], [1], [1]] = some y ∧
      y.length = 4 ∧
      ∀ b j : Nat, b < 1 → j < 4 →
        y.get? (4 * b + j) =
          (([[1], [1], [1], [1]] : Tensor).get? (4 * b + j)).map
            (List.map (· * latentStrengthSpec 4 ⟨[⟨0, 2⟩, ⟨2, 1/2⟩]⟩ 0 j)) := by
  have h := c6_latent_strengths.1 sLatC6 ⟨[⟨0, 2⟩, ⟨2, 1/2⟩]⟩ TimestepKeyframe.default
    [[1], [1], [1], [1]] 1 rfl rfl rfl rfl rfl rfl rfl (by norm_num) (by norm_num)
    (by decide) (by decide)
  exact h
